import Mathlib

/-!
Shallow embedding of the Flatten/Reconstruct pipeline of the
FBReader_Translator repository (src/auto_translator.py and
src/fbtranslator.py), together with theorems settling the spec's claims.

Python strings are modelled as Lean `String`, Python dicts as
insertion-ordered association lists, relative paths as a list of directory
segments plus a filename.
-/

/-- Python `s.startswith(pre)`, modelled as a character-list prefix test. -/
def pyStartswith (s pre : String) : Bool :=
  pre.data.isPrefixOf s.data

/-- Python dict lookup `d.get(k)` over an insertion-ordered association list.
Lists built by `dictInsert` have unique keys, so first-match lookup agrees
with Python dict semantics. -/
def dictLookup {α β : Type} [DecidableEq α] (l : List (α × β)) (k : α) : Option β :=
  match l with
  | [] => none
  | kv :: rest => if kv.1 = k then some kv.2 else dictLookup rest k

/-- Python membership test `k in d`. -/
def dictMem {α β : Type} [DecidableEq α] (l : List (α × β)) (k : α) : Bool :=
  (dictLookup l k).isSome

/-- Python `d.get(k, default)`. -/
def dictGetD {α β : Type} [DecidableEq α] (l : List (α × β)) (k : α) (d : β) : β :=
  (dictLookup l k).getD d

/-- Python dict assignment `d[k] = v`: replaces the value in place when the
key is present, otherwise appends the pair (dicts preserve insertion order). -/
def dictInsert {α β : Type} [DecidableEq α] (l : List (α × β)) (k : α) (v : β) :
    List (α × β) :=
  match l with
  | [] => [(k, v)]
  | kv :: rest => if kv.1 = k then (k, v) :: rest else kv :: dictInsert rest k v

/-- Per-segment rewrite inside `Packer.generate` (src/auto_translator.py,
lines 323-328): a directory segment starting with `values` becomes
`values-` ++ tag, every other segment passes through unchanged. -/
def rewriteSegment (tag part : String) : String :=
  if pyStartswith part "values" then "values-" ++ tag else part

/-- The `found_values_dir` flag of `Packer.generate`: true iff some parent
directory segment starts with `values` (its negation triggers the
no-`values`-dir warning). -/
def found_values_dir (dirs : List String) : Bool :=
  dirs.any (fun part => pyStartswith part "values")

/-- Target relative path computed by `Packer.generate`
(src/auto_translator.py, lines 316-335): every parent-directory segment is
rewritten by `rewriteSegment`, the filename is appended unchanged. -/
def rewrite_path (tag : String) (dirs : List String) (file : String) : List String :=
  dirs.map (rewriteSegment tag) ++ [file]

/-- The XML_HEADER constant of XMLHandler (src/auto_translator.py line 29). -/
def XML_HEADER : String := "<?xml version=\"1.0\" encoding=\"utf-8\"?>\n"

/-- Python `sorted` on a list of strings (lexicographic order). -/
def pySorted (l : List String) : List String :=
  List.insertionSort (fun a b => a ≤ b) l

/-- The `sorted(entries.keys())` list of XMLHandler.write_entries. -/
def sorted_names (entries : List (String × String)) : List String :=
  pySorted (entries.map Prod.fst)

/-- File content produced by XMLHandler.write_entries
(src/auto_translator.py lines 75-120): header, `<resources>`, one
`    <string name="NAME">TEXT</string>` line per entry in sorted-by-name
order, then `</resources>`. The value is interpolated verbatim into the
line: the escaping step in the source is commented out. -/
def write_entries_content (entries : List (String × String)) : String :=
  XML_HEADER ++ "<resources>\n" ++
    String.join ((sorted_names entries).map (fun n =>
      "    <string name=\"" ++ n ++ "\">" ++ dictGetD entries n "" ++
        "</string>\n")) ++
    "</resources>\n"

/-- Map-file content written by Unpacker.flatten (src/auto_translator.py
lines 193-199): one `name:path` line per provenance entry, keys sorted.
Paths are modelled with `/` separators, so the os.sep replacement is the
identity. -/
def map_file_content (map_data : List (String × String)) : String :=
  String.join ((pySorted (map_data.map Prod.fst)).map (fun n =>
    n ++ ":" ++ dictGetD map_data n "" ++ "\n"))

/-- State of Unpacker.flatten (src/auto_translator.py lines 154-212): the
ledger `all_entries`, the provenance `map_data`, and the logged
duplicate-conflict warnings as (name, new path, original location)
triples. -/
structure FlattenState where
  all_entries : List (String × String)
  map_data : List (String × String)
  conflict_warnings : List (String × String × String)
deriving DecidableEq

/-- One step of Unpacker.flatten's inner loop (lines 175-181): a conflict
warning is logged when the name already maps to a different text, naming
the new path and the original location `map_data.get(name, "unknown")`;
then both the ledger and the provenance map are updated (last write
wins). -/
def flattenEntry (path : String) (st : FlattenState) (nt : String × String) :
    FlattenState :=
  let warnings :=
    match dictLookup st.all_entries nt.1 with
    | some t0 =>
        if t0 = nt.2 then st.conflict_warnings
        else st.conflict_warnings ++ [(nt.1, path, dictGetD st.map_data nt.1 "unknown")]
    | none => st.conflict_warnings
  { all_entries := dictInsert st.all_entries nt.1 nt.2
    map_data := dictInsert st.map_data nt.1 path
    conflict_warnings := warnings }

/-- Unpacker.flatten over one scanned file given as (relative path,
entries): a file whose read produced no entries is skipped with a warning
(lines 172-174). -/
def flattenFile (st : FlattenState) (f : String × List (String × String)) :
    FlattenState :=
  if f.2 = [] then st else f.2.foldl (flattenEntry f.1) st

/-- Unpacker.flatten over the scanned files in traversal order, starting
from the empty ledger and provenance map (lines 162-181). -/
def flattenRun (files : List (String × List (String × String))) : FlattenState :=
  files.foldl flattenFile ⟨[], [], []⟩

/-- A relative path as parent-directory segments plus a filename. -/
structure RelPath where
  dirs : List String
  file : String
deriving DecidableEq

/-- Accumulator of Packer.generate (src/auto_translator.py lines 312-349):
`file_to_entries` grouped by target path, plus the missing-translation and
processed counters. -/
structure GenState where
  file_to_entries : List (List String × List (String × String))
  missing_translations : Nat
  processed_entries : Nat
deriving DecidableEq

/-- `file_to_entries[key][name] = text`, preceded by
`if key not in file_to_entries: file_to_entries[key] = {}` (lines
340-342). -/
def groupInsert (groups : List (List String × List (String × String)))
    (key : List String) (name text : String) :
    List (List String × List (String × String)) :=
  match dictLookup groups key with
  | some d => dictInsert groups key (dictInsert d name text)
  | none => groups ++ [(key, [(name, text)])]

/-- One iteration of the provenance-map loop of Packer.generate (lines
316-344): compute the rewritten target path; when the name has a
translation, group it under that path, otherwise only count it missing. -/
def genStep (tag : String) (translated : List (String × String))
    (st : GenState) (np : String × RelPath) : GenState :=
  let target := rewrite_path tag np.2.dirs np.2.file
  match dictLookup translated np.1 with
  | some t =>
      { file_to_entries := groupInsert st.file_to_entries target np.1 t
        missing_translations := st.missing_translations
        processed_entries := st.processed_entries + 1 }
  | none =>
      { st with missing_translations := st.missing_translations + 1 }

/-- The grouping pass of Packer.generate over the whole provenance map. -/
def generateGroups (tag : String) (translated : List (String × String))
    (map_data : List (String × RelPath)) : GenState :=
  map_data.foldl (genStep tag translated) ⟨[], 0, 0⟩

/-- The file_write_errors counter of Packer.generate (lines 352-359): the
environment decides which target files fail to write, modelled by the
predicate `writeFails`. -/
def file_write_errors (writeFails : List String → Bool) (st : GenState) : Nat :=
  (st.file_to_entries.filter (fun g => writeFails g.1)).length

/-- Result of Packer.generate once the map file and the translated ledger
were read successfully (src/auto_translator.py lines 300-367): False on an
empty provenance map, otherwise False iff at least one per-file write
failed; missing translations only print a warning. -/
def generate_ok (tag : String) (translated : List (String × String))
    (map_data : List (String × RelPath)) (writeFails : List String → Bool) : Bool :=
  if map_data = [] then false
  else file_write_errors writeFails (generateGroups tag translated map_data) == 0

/-- Python `not text or text.isspace()` of translate_xml (line 494):
true iff every character is whitespace (vacuously for the empty string). -/
def is_blank (text : String) : Bool :=
  (text == "") || text.data.all Char.isWhitespace

/-- The per-entry loop of translate_xml (src/auto_translator.py lines
483-534) followed by the post-loop cancellation check (lines 539-540) and
the final write (lines 542-547). `stopSet i` says whether the cooperative
stop flag is observed set at the i-th check (one check before each entry,
one after the loop); `tr` is the external translator, `none` modelling a
call that returned None or raised (the code then keeps the original text).
`none` as a result means the function returned False without writing the
target file. -/
def translateLoop (stopSet : Nat → Bool) (tr : String → Option String) :
    Nat → List (String × String) → List (String × String) →
      Option (List (String × String))
  | i, acc, [] => if stopSet i then none else some acc
  | i, acc, (n, t) :: rest =>
      if stopSet i then none
      else
        let out := if is_blank t then t else (tr t).getD t
        translateLoop stopSet tr (i + 1) (acc ++ [(n, out)]) rest

/-- translate_xml on a non-empty source ledger: (returned result, content
written to the target file, if any). -/
def translate_xml_run (stopSet : Nat → Bool) (tr : String → Option String)
    (entries : List (String × String)) : Bool × Option (List (String × String)) :=
  match translateLoop stopSet tr 0 [] entries with
  | none => (false, none)
  | some out => (true, some out)

/-- Packer.modify_folder_name of src/fbtranslator.py (lines 158-163):
`parts[-2]` is read unconditionally, so a path with fewer than two
components raises IndexError, modelled as `none`. Otherwise the
second-to-last component gets `-` ++ lang_suffix appended when it starts
with `values`, and the path is returned. -/
def fb_modify_folder_name (lang_suffix : String) (parts : List String) :
    Option (List String) :=
  if 2 ≤ parts.length then
    let i := parts.length - 2
    let p := parts.getD i ""
    some (if pyStartswith p "values" then parts.set i (p ++ "-" ++ lang_suffix)
          else parts)
  else none

/-- Result of Packer.generate of src/fbtranslator.py (lines 165-198): the
whole body runs in one try/except that returns False on any exception. An
entry aborts the run when modify_folder_name raises IndexError (path with
fewer than two components) or when the key is absent from the translated
ledger (`root.find(...)` returns None and `.text` raises AttributeError);
the run succeeds iff no entry aborts. -/
def fb_generate (lang_suffix : String) (translated : String → Option String)
    (entries : List (String × List (List String))) : Bool :=
  entries.all (fun kv => kv.2.all (fun p =>
    (fb_modify_folder_name lang_suffix p).isSome && (translated kv.1).isSome))

/-- C1: for every relative path and non-empty locale tag, the reconstruction
path rewrite replaces every directory segment starting with `values` by
`values-` ++ tag, leaves all other segments and the filename unchanged,
and when no segment starts with `values` the whole path is unchanged (the
warning condition `found_values_dir = false` holds exactly then); in
particular `rewrite("res/values/strings.xml", "fr") =
"res/values-fr/strings.xml"` and `rewrite("res/layout/x.xml", "fr")` is
unchanged. -/
theorem rewrite_path_replaces_values_segments
    (tag : String) (htag : tag ≠ "") (dirs : List String) (file : String) :
    (∀ (i : Nat) (part : String), dirs[i]? = some part →
      pyStartswith part "values" = true →
      (rewrite_path tag dirs file)[i]? = some ("values-" ++ tag)) ∧
    (∀ (i : Nat) (part : String), dirs[i]? = some part →
      pyStartswith part "values" = false →
      (rewrite_path tag dirs file)[i]? = some part) ∧
    (rewrite_path tag dirs file)[dirs.length]? = some file ∧
    (found_values_dir dirs = false → rewrite_path tag dirs file = dirs ++ [file]) ∧
    rewrite_path "fr" ["res", "values"] "strings.xml" =
      ["res", "values-fr", "strings.xml"] ∧
    rewrite_path "fr" ["res", "layout"] "x.xml" = ["res", "layout", "x.xml"] := by
  refine ⟨?_, ?_, ?_, ?_, by decide, by decide⟩
  · intro i part hpart hv
    have hi : i < dirs.length := by
      by_contra hge
      rw [List.getElem?_eq_none (by omega)] at hpart
      exact Option.noConfusion hpart
    have hlt : i < (dirs.map (rewriteSegment tag)).length := by
      simpa using hi
    rw [rewrite_path, List.getElem?_append, if_pos hlt, List.getElem?_map, hpart]
    simp [rewriteSegment, hv]
  · intro i part hpart hv
    have hi : i < dirs.length := by
      by_contra hge
      rw [List.getElem?_eq_none (by omega)] at hpart
      exact Option.noConfusion hpart
    have hlt : i < (dirs.map (rewriteSegment tag)).length := by
      simpa using hi
    rw [rewrite_path, List.getElem?_append, if_pos hlt, List.getElem?_map, hpart]
    simp [rewriteSegment, hv]
  · rw [rewrite_path]
    rw [List.getElem?_append_right (by simp)]
    simp
  · intro hnone
    rw [rewrite_path]
    rw [found_values_dir] at hnone
    have hall := List.any_eq_false.mp hnone
    have h1 : ∀ a ∈ dirs, rewriteSegment tag a = a := by
      intro a ha
      have h2 : pyStartswith a "values" = false := by
        have := hall a ha
        simpa using this
      simp [rewriteSegment, h2]
    have h3 : dirs.map (rewriteSegment tag) = dirs := by
      rw [List.map_congr_left h1]
      simp
    rw [h3]

/-- Witness for C1 at a concrete input. -/
theorem rewrite_path_replaces_values_segments_w :
    rewrite_path "fr" ["res", "values"] "strings.xml" =
      ["res", "values-fr", "strings.xml"] :=
  (rewrite_path_replaces_values_segments "fr" (by decide) [] "").2.2.2.2.1

theorem dictLookup_eq_none_iff {α β : Type} [DecidableEq α]
    (l : List (α × β)) (k : α) :
    dictLookup l k = none ↔ k ∉ l.map Prod.fst := by
  induction l with
  | nil => simp [dictLookup]
  | cons kv rest ih =>
    rw [dictLookup, List.map_cons]
    by_cases h : kv.1 = k
    · rw [if_pos h]
      simp [h]
    · rw [if_neg h, ih]
      constructor
      · intro hk
        rw [List.mem_cons]
        push_neg
        exact ⟨fun hc => h hc.symm, hk⟩
      · intro hk hc
        exact hk (List.mem_cons_of_mem _ hc)

theorem dictLookup_mem {α β : Type} [DecidableEq α]
    {l : List (α × β)} {k : α} {v : β} (h : dictLookup l k = some v) :
    (k, v) ∈ l := by
  induction l with
  | nil => exact Option.noConfusion h
  | cons kv rest ih =>
    rw [dictLookup] at h
    by_cases hk : kv.1 = k
    · rw [if_pos hk] at h
      have hv : kv.2 = v := Option.some.inj h
      have hkv : kv = (k, v) := by
        rw [← hk, ← hv]
      rw [hkv]
      exact List.mem_cons_self _ _
    · rw [if_neg hk] at h
      right
      exact ih h

theorem dictLookup_some_iff {α β : Type} [DecidableEq α]
    {l : List (α × β)} (hnd : (l.map Prod.fst).Nodup) (k : α) (v : β) :
    dictLookup l k = some v ↔ (k, v) ∈ l := by
  constructor
  · exact dictLookup_mem
  · intro hmem
    induction l with
    | nil => exact absurd hmem (List.not_mem_nil _)
    | cons kv rest ih =>
      rw [List.map_cons, List.nodup_cons] at hnd
      rw [dictLookup]
      rcases List.mem_cons.mp hmem with heq | htail
      · rw [← heq]
        simp
      · have hk : kv.1 ≠ k := by
          intro hc
          exact hnd.1 (hc ▸ List.mem_map_of_mem Prod.fst htail)
        rw [if_neg hk]
        exact ih hnd.2 htail

theorem dictLookup_perm {α β : Type} [DecidableEq α]
    {l1 l2 : List (α × β)} (hperm : l1.Perm l2)
    (hnd : (l1.map Prod.fst).Nodup) (k : α) :
    dictLookup l1 k = dictLookup l2 k := by
  have hnd2 : (l2.map Prod.fst).Nodup :=
    ((hperm.map Prod.fst).nodup_iff).mp hnd
  cases h : dictLookup l1 k with
  | some v =>
    have := (dictLookup_some_iff hnd k v).mp h
    exact ((dictLookup_some_iff hnd2 k v).mpr (hperm.mem_iff.mp this)).symm
  | none =>
    have hk : k ∉ l1.map Prod.fst := (dictLookup_eq_none_iff l1 k).mp h
    have hk2 : k ∉ l2.map Prod.fst := fun hc =>
      hk ((hperm.map Prod.fst).mem_iff.mpr hc)
    exact ((dictLookup_eq_none_iff l2 k).mpr hk2).symm

theorem dictInsert_keys {α β : Type} [DecidableEq α]
    (l : List (α × β)) (k : α) (v : β) :
    (dictInsert l k v).map Prod.fst =
      if k ∈ l.map Prod.fst then l.map Prod.fst else l.map Prod.fst ++ [k] := by
  induction l with
  | nil => simp [dictInsert]
  | cons kv rest ih =>
    by_cases h : kv.1 = k
    · simp [dictInsert, h]
    · have hne : ¬k = kv.1 := fun hc => h hc.symm
      simp only [dictInsert, if_neg h, List.map_cons, ih, List.mem_cons]
      by_cases hmem : k ∈ rest.map Prod.fst
      · simp [hmem, hne]
      · simp [hmem, hne]

theorem dictInsert_nodup_keys {α β : Type} [DecidableEq α]
    {l : List (α × β)} (hnd : (l.map Prod.fst).Nodup) (k : α) (v : β) :
    ((dictInsert l k v).map Prod.fst).Nodup := by
  rw [dictInsert_keys]
  by_cases h : k ∈ l.map Prod.fst
  · rw [if_pos h]
    exact hnd
  · rw [if_neg h]
    simp [List.nodup_append, hnd, h]

theorem mem_dictInsert {α β : Type} [DecidableEq α]
    {l : List (α × β)} {k : α} {v : β} {g : α × β}
    (h : g ∈ dictInsert l k v) : g ∈ l ∨ g = (k, v) := by
  induction l with
  | nil =>
    right
    simpa [dictInsert] using h
  | cons kv rest ih =>
    rw [dictInsert] at h
    by_cases hk : kv.1 = k
    · rw [if_pos hk] at h
      rcases List.mem_cons.mp h with heq | htail
      · right; exact heq
      · left; exact List.mem_cons_of_mem _ htail
    · rw [if_neg hk] at h
      rcases List.mem_cons.mp h with heq | htail
      · left; exact heq ▸ List.mem_cons_self _ _
      · rcases ih htail with hl | hr
        · left; exact List.mem_cons_of_mem _ hl
        · right; exact hr

/-- C2 evidence: XMLHandler.write_entries interpolates values verbatim, so
a value containing `<` is emitted unescaped, yielding content that is not
well-formed XML (read_entries' ET.parse then fails and returns the empty
mapping, so encode-then-decode does not recover the entries). -/
theorem write_entries_content_unescaped :
    write_entries_content [("k", "a<b")] =
      "<?xml version=\"1.0\" encoding=\"utf-8\"?>\n<resources>\n    <string name=\"k\">a<b</string>\n</resources>\n" := by
  rfl

/-- C6: flattening exactly two files holding the same name with different
texts logs exactly one conflict warning, naming the new path and the
original location, and the ledger keeps exactly one of the two texts (the
later one: last write wins). -/
theorem flatten_duplicate_conflict (p1 p2 n t1 t2 : String) (h : t1 ≠ t2) :
    (flattenRun [(p1, [(n, t1)]), (p2, [(n, t2)])]).conflict_warnings =
      [(n, p2, p1)] ∧
    (flattenRun [(p1, [(n, t1)]), (p2, [(n, t2)])]).all_entries = [(n, t2)] := by
  simp [flattenRun, flattenFile, flattenEntry, dictLookup, dictInsert,
    dictGetD, h]

/-- Witness for C6 at a concrete input. -/
theorem flatten_duplicate_conflict_w :
    (flattenRun [("a/values/s.xml", [("k", "Hi")]),
        ("b/values/s.xml", [("k", "Bye")])]).conflict_warnings =
      [("k", "b/values/s.xml", "a/values/s.xml")] ∧
    (flattenRun [("a/values/s.xml", [("k", "Hi")]),
        ("b/values/s.xml", [("k", "Bye")])]).all_entries = [("k", "Bye")] :=
  flatten_duplicate_conflict "a/values/s.xml" "b/values/s.xml" "k" "Hi" "Bye"
    (by decide)

/-- C7: once the map file and translated ledger are read and the map is
non-empty, Packer.generate returns failure exactly when at least one
per-target-file write fails; missing translations alone (even all of them,
`translated = []`) never fail the reconstruction. -/
theorem generate_fails_iff_write_error (tag : String)
    (translated : List (String × String)) (map_data : List (String × RelPath))
    (writeFails : List String → Bool) (h : map_data ≠ []) :
    (generate_ok tag translated map_data writeFails = false ↔
      ∃ g ∈ (generateGroups tag translated map_data).file_to_entries,
        writeFails g.1 = true) ∧
    (∀ tr2 : List (String × String),
      generate_ok tag tr2 map_data (fun x => false) = true) := by
  constructor
  · rw [generate_ok, if_neg h]
    simp only [beq_eq_false_iff_ne, ne_eq, file_write_errors,
      List.length_eq_zero]
    rw [List.filter_eq_nil]
    push_neg
    simp
  · intro tr2
    rw [generate_ok, if_neg h]
    simp [file_write_errors, List.filter_eq_nil]

/-- Witness for C7 at a concrete input. -/
theorem generate_fails_iff_write_error_w :
    generate_ok "fr" [] [("k", ⟨["values"], "s.xml"⟩)] (fun x => false) = true :=
  (generate_fails_iff_write_error "fr" [] [("k", ⟨["values"], "s.xml"⟩)]
    (fun x => false) (by simp)).2 []

/-- C3 counterexample: with provenance entry k -> res/values/s.xml and an
empty translated ledger, Packer.generate emits k into no target file at
all (file_to_entries stays empty, so no entry with the original text is
written anywhere), while counting it missing. -/
theorem generate_missing_not_emitted :
    (generateGroups "fr" [] [("k", ⟨["res", "values"], "s.xml"⟩)]).file_to_entries
      = [] ∧
    (generateGroups "fr" [] [("k", ⟨["res", "values"], "s.xml"⟩)]).missing_translations
      = 1 := by
  constructor <;> rfl

theorem mem_groupInsert {groups : List (List String × List (String × String))}
    {key : List String} {n t : String} {g : List String × List (String × String)}
    (h : g ∈ groupInsert groups key n t) :
    g ∈ groups ∨
      (∃ d, dictLookup groups key = some d ∧ g = (key, dictInsert d n t)) ∨
      g = (key, [(n, t)]) := by
  rw [groupInsert] at h
  split at h
  next d hl =>
    rcases mem_dictInsert h with hm | he
    · exact Or.inl hm
    · exact Or.inr (Or.inl ⟨d, hl, he⟩)
  next hl =>
    rcases List.mem_append.mp h with hm | he
    · exact Or.inl hm
    · exact Or.inr (Or.inr (by simpa using he))

theorem genFold_groups_translated (tag : String)
    (translated : List (String × String)) (map_data : List (String × RelPath))
    (st : GenState)
    (hst : ∀ g ∈ st.file_to_entries, ∀ nt ∈ g.2,
      (dictLookup translated nt.1).isSome = true) :
    ∀ g ∈ (map_data.foldl (genStep tag translated) st).file_to_entries,
      ∀ nt ∈ g.2, (dictLookup translated nt.1).isSome = true := by
  induction map_data generalizing st with
  | nil => exact hst
  | cons np rest ih =>
    rw [List.foldl_cons]
    apply ih
    intro g hg nt hnt
    rw [genStep] at hg
    split at hg
    next t hl =>
      rcases mem_groupInsert hg with hm | ⟨d, hd, he⟩ | he
      · exact hst g hm nt hnt
      · rcases mem_dictInsert (he ▸ hnt) with hm2 | he2
        · exact hst (rewrite_path tag np.2.dirs np.2.file, d)
            (dictLookup_mem hd) nt hm2
        · rw [he2]
          simp [hl]
      · rw [he] at hnt
        have : nt = (np.1, t) := List.mem_singleton.mp hnt
        rw [this]
        simp [hl]
    next hl =>
      exact hst g hg nt hnt

theorem genFold_missing (tag : String) (translated : List (String × String))
    (map_data : List (String × RelPath)) (st : GenState) :
    (map_data.foldl (genStep tag translated) st).missing_translations =
      st.missing_translations +
        (map_data.filter (fun np => (dictLookup translated np.1).isNone)).length := by
  induction map_data generalizing st with
  | nil => simp
  | cons np rest ih =>
    rw [List.foldl_cons, ih, List.filter_cons]
    rw [genStep]
    cases hl : dictLookup translated np.1 with
    | some t => simp [hl]
    | none =>
      simp [hl]
      omega

/-- C3 (amended): a provenance name absent from the translated ledger is
not emitted into any target file at all (Packer.generate skips it), the
missing-translation counter counts exactly the provenance entries without
a translation (so each such entry adds exactly 1 and the count is
positive here), and the reconstruction still succeeds when no write
fails. -/
theorem generate_missing_skipped (tag : String)
    (translated : List (String × String)) (map_data : List (String × RelPath))
    (name : String) (p : RelPath)
    (hmem : (name, p) ∈ map_data) (habs : dictLookup translated name = none) :
    (∀ g ∈ (generateGroups tag translated map_data).file_to_entries,
      ∀ t : String, (name, t) ∉ g.2) ∧
    (generateGroups tag translated map_data).missing_translations =
      (map_data.filter (fun np => (dictLookup translated np.1).isNone)).length ∧
    0 < (map_data.filter (fun np => (dictLookup translated np.1).isNone)).length ∧
    generate_ok tag translated map_data (fun x => false) = true := by
  refine ⟨?_, ?_, ?_, ?_⟩
  · intro g hg t hnt
    have h1 := genFold_groups_translated tag translated map_data ⟨[], 0, 0⟩
      (by simp) g hg (name, t) hnt
    rw [habs] at h1
    simp at h1
  · have h2 := genFold_missing tag translated map_data ⟨[], 0, 0⟩
    simpa using h2
  · apply List.length_pos.mpr
    apply List.ne_nil_of_mem
    exact List.mem_filter.mpr ⟨hmem, by simp [habs]⟩
  · rw [generate_ok, if_neg (List.ne_nil_of_mem hmem)]
    simp [file_write_errors]

/-- Witness for C3's amended theorem at a concrete input. -/
theorem generate_missing_skipped_w :
    generate_ok "fr" [] [("k2", ⟨["res", "values"], "s2.xml"⟩)]
      (fun x => false) = true :=
  (generate_missing_skipped "fr" [] [("k2", ⟨["res", "values"], "s2.xml"⟩)]
    "k2" ⟨["res", "values"], "s2.xml"⟩ (by simp) rfl).2.2.2

theorem groupInsert_nodup_keys
    {groups : List (List String × List (String × String))}
    (h : (groups.map Prod.fst).Nodup) (key : List String) (n t : String) :
    ((groupInsert groups key n t).map Prod.fst).Nodup := by
  rw [groupInsert]
  split
  next d hl => exact dictInsert_nodup_keys h key _
  next hl =>
    have hk : key ∉ groups.map Prod.fst := (dictLookup_eq_none_iff groups key).mp hl
    rw [List.map_append]
    simp [List.nodup_append, h, hk]

theorem genFold_nodup (tag : String) (translated : List (String × String))
    (map_data : List (String × RelPath)) (st : GenState)
    (h1 : (st.file_to_entries.map Prod.fst).Nodup)
    (h2 : ∀ g ∈ st.file_to_entries, (g.2.map Prod.fst).Nodup) :
    (((map_data.foldl (genStep tag translated) st).file_to_entries.map Prod.fst).Nodup ∧
      ∀ g ∈ (map_data.foldl (genStep tag translated) st).file_to_entries,
        (g.2.map Prod.fst).Nodup) := by
  induction map_data generalizing st with
  | nil => exact ⟨h1, h2⟩
  | cons np rest ih =>
    rw [List.foldl_cons]
    apply ih
    · rw [genStep]
      split
      next t hl => exact groupInsert_nodup_keys h1 _ np.1 t
      next hl => exact h1
    · rw [genStep]
      split
      next t hl =>
        intro g hg
        rcases mem_groupInsert hg with hm | ⟨d, hd, he⟩ | he
        · exact h2 g hm
        · rw [he]
          exact dictInsert_nodup_keys
            (h2 (rewrite_path tag np.2.dirs np.2.file, d) (dictLookup_mem hd)) np.1 t
        · rw [he]
          simp
      next hl => exact h2

theorem dictLookup_dictInsert_self {α β : Type} [DecidableEq α]
    (l : List (α × β)) (k : α) (v : β) :
    dictLookup (dictInsert l k v) k = some v := by
  induction l with
  | nil => simp [dictInsert, dictLookup]
  | cons kv rest ih =>
    rw [dictInsert]
    by_cases h : kv.1 = k
    · rw [if_pos h, dictLookup]
      simp
    · rw [if_neg h, dictLookup, if_neg h]
      exact ih

theorem dictLookup_dictInsert_ne {α β : Type} [DecidableEq α]
    (l : List (α × β)) {k k2 : α} (hne : k2 ≠ k) (v : β) :
    dictLookup (dictInsert l k v) k2 = dictLookup l k2 := by
  induction l with
  | nil =>
    rw [dictInsert, dictLookup, dictLookup]
    exact if_neg (fun hc => hne hc.symm)
  | cons kv rest ih =>
    rw [dictInsert]
    by_cases h : kv.1 = k
    · rw [if_pos h, dictLookup, dictLookup]
      have h1 : ¬k = k2 := fun hc => hne hc.symm
      have h2 : ¬kv.1 = k2 := by
        rw [h]
        exact h1
      rw [if_neg h1, if_neg h2]
    · rw [if_neg h, dictLookup, dictLookup]
      by_cases h2 : kv.1 = k2
      · rw [if_pos h2, if_pos h2]
      · rw [if_neg h2, if_neg h2]
        exact ih

theorem dictLookup_append_left {α β : Type} [DecidableEq α]
    {l1 : List (α × β)} (l2 : List (α × β)) {k : α} {v : β}
    (h : dictLookup l1 k = some v) :
    dictLookup (l1 ++ l2) k = some v := by
  induction l1 with
  | nil => exact Option.noConfusion h
  | cons kv rest ih =>
    rw [List.cons_append, dictLookup]
    rw [dictLookup] at h
    by_cases h1 : kv.1 = k
    · rw [if_pos h1] at h ⊢
      exact h
    · rw [if_neg h1] at h ⊢
      exact ih h

theorem dictLookup_append_right {α β : Type} [DecidableEq α]
    {l1 : List (α × β)} (l2 : List (α × β)) {k : α}
    (h : k ∉ l1.map Prod.fst) :
    dictLookup (l1 ++ l2) k = dictLookup l2 k := by
  induction l1 with
  | nil => rfl
  | cons kv rest ih =>
    rw [List.map_cons, List.mem_cons] at h
    push_neg at h
    rw [List.cons_append, dictLookup, if_neg (fun hc => h.1 hc.symm)]
    exact ih h.2

theorem groupInsert_lookup_self
    {groups : List (List String × List (String × String))}
    (key : List String) (n t : String) :
    dictLookup (groupInsert groups key n t) key =
      some (dictInsert ((dictLookup groups key).getD []) n t) := by
  rw [groupInsert]
  split
  next d hl =>
    rw [dictLookup_dictInsert_self, hl]
    rfl
  next hl =>
    have hk : key ∉ groups.map Prod.fst := (dictLookup_eq_none_iff groups key).mp hl
    rw [dictLookup_append_right _ hk, hl, dictLookup]
    simp [dictInsert]

theorem groupInsert_lookup_ne
    {groups : List (List String × List (String × String))}
    {key key2 : List String} (hne : key2 ≠ key) (n t : String) :
    dictLookup (groupInsert groups key n t) key2 = dictLookup groups key2 := by
  rw [groupInsert]
  split
  next d hl => exact dictLookup_dictInsert_ne groups hne _
  next hl =>
    cases h2 : dictLookup groups key2 with
    | some v => exact dictLookup_append_left _ h2
    | none =>
      have hk : key2 ∉ groups.map Prod.fst := (dictLookup_eq_none_iff groups key2).mp h2
      rw [dictLookup_append_right _ hk, dictLookup]
      exact if_neg (fun hc => hne hc.symm)

theorem genStep_preserves_present (tag : String)
    (translated : List (String × String)) (st : GenState)
    (np : String × RelPath) (n t : String) (target : List String)
    (hne : np.1 ≠ n)
    (hpres : ∃ d, dictLookup st.file_to_entries target = some d ∧
      dictLookup d n = some t) :
    ∃ d, dictLookup (genStep tag translated st np).file_to_entries target
        = some d ∧ dictLookup d n = some t := by
  obtain ⟨d, hd, hn⟩ := hpres
  cases hl : dictLookup translated np.1 with
  | none =>
    simp only [genStep, hl]
    exact ⟨d, hd, hn⟩
  | some t2 =>
    simp only [genStep, hl]
    by_cases hkey : rewrite_path tag np.2.dirs np.2.file = target
    · rw [hkey]
      refine ⟨_, groupInsert_lookup_self target np.1 t2, ?_⟩
      rw [hd, Option.getD_some,
        dictLookup_dictInsert_ne _ (fun hc => hne hc.symm)]
      exact hn
    · rw [groupInsert_lookup_ne (fun hc => hkey hc.symm)]
      exact ⟨d, hd, hn⟩

theorem genStep_establishes (tag : String)
    (translated : List (String × String)) (st : GenState)
    (n : String) (p : RelPath) (t : String)
    (hl : dictLookup translated n = some t) :
    ∃ d, dictLookup (genStep tag translated st (n, p)).file_to_entries
        (rewrite_path tag p.dirs p.file) = some d ∧ dictLookup d n = some t := by
  simp only [genStep, hl]
  exact ⟨_, groupInsert_lookup_self _ n t, by rw [dictLookup_dictInsert_self]⟩

theorem genFold_preserves_present (tag : String)
    (translated : List (String × String)) (rest : List (String × RelPath))
    (st : GenState) (n t : String) (target : List String)
    (hne : ∀ np ∈ rest, np.1 ≠ n)
    (hpres : ∃ d, dictLookup st.file_to_entries target = some d ∧
      dictLookup d n = some t) :
    ∃ d, dictLookup (rest.foldl (genStep tag translated) st).file_to_entries
        target = some d ∧ dictLookup d n = some t := by
  induction rest generalizing st with
  | nil => exact hpres
  | cons np l ih =>
    rw [List.foldl_cons]
    exact ih _ (fun x hx => hne x (List.mem_cons_of_mem _ hx))
      (genStep_preserves_present tag translated st np n t target
        (hne np (List.mem_cons_self _ _)) hpres)

/-- C5: after the grouping pass of Packer.generate, every target path
appears exactly once in file_to_entries and within every target file each
entry name appears at most once; moreover (for a provenance map with
distinct names, as a Python dict guarantees) every provenance entry whose
name has a translation is present with its translated text in the single
group of its rewritten target path — so several provenance entries
rewriting to the same target path are all merged into that one file, none
overwritten or dropped. -/
theorem generate_unique_targets_and_names (tag : String)
    (translated : List (String × String)) (map_data : List (String × RelPath)) :
    ((generateGroups tag translated map_data).file_to_entries.map Prod.fst).Nodup ∧
    (∀ g ∈ (generateGroups tag translated map_data).file_to_entries,
      (g.2.map Prod.fst).Nodup) ∧
    ((map_data.map Prod.fst).Nodup →
      ∀ (n : String) (p : RelPath) (t : String), (n, p) ∈ map_data →
        dictLookup translated n = some t →
        ∃ d, dictLookup (generateGroups tag translated map_data).file_to_entries
            (rewrite_path tag p.dirs p.file) = some d ∧
          dictLookup d n = some t) := by
  refine ⟨(genFold_nodup tag translated map_data ⟨[], 0, 0⟩ (by simp) (by simp)).1,
    (genFold_nodup tag translated map_data ⟨[], 0, 0⟩ (by simp) (by simp)).2,
    ?_⟩
  intro hnd n p t hmem hl
  obtain ⟨l1, l2, rfl⟩ := List.append_of_mem hmem
  rw [generateGroups, List.foldl_append, List.foldl_cons]
  have hrest : ∀ np ∈ l2, np.1 ≠ n := by
    rw [List.map_append, List.map_cons] at hnd
    have h2 := (List.nodup_append.mp hnd).2.1
    have h3 : n ∉ l2.map Prod.fst := (List.nodup_cons.mp h2).1
    intro np hnp hc
    exact h3 (hc ▸ List.mem_map_of_mem Prod.fst hnp)
  exact genFold_preserves_present tag translated l2 _ n t _ hrest
    (genStep_establishes tag translated _ n p t hl)

/-- Witness for C5 at a concrete input: two provenance entries whose paths
both rewrite to res/values-zh/s.xml end up together in that one file. -/
theorem generate_unique_targets_and_names_w :
    (∃ d, dictLookup (generateGroups "zh" [("k1", "T1"), ("k2", "T2")]
          [("k1", ⟨["res", "values"], "s.xml"⟩),
            ("k2", ⟨["res", "values-fr"], "s.xml"⟩)]).file_to_entries
        (rewrite_path "zh" ["res", "values"] "s.xml") = some d ∧
      dictLookup d "k1" = some "T1") ∧
    (∃ d, dictLookup (generateGroups "zh" [("k1", "T1"), ("k2", "T2")]
          [("k1", ⟨["res", "values"], "s.xml"⟩),
            ("k2", ⟨["res", "values-fr"], "s.xml"⟩)]).file_to_entries
        (rewrite_path "zh" ["res", "values-fr"] "s.xml") = some d ∧
      dictLookup d "k2" = some "T2") :=
  ⟨(generate_unique_targets_and_names "zh" [("k1", "T1"), ("k2", "T2")]
      [("k1", ⟨["res", "values"], "s.xml"⟩),
        ("k2", ⟨["res", "values-fr"], "s.xml"⟩)]).2.2 (by decide)
      "k1" ⟨["res", "values"], "s.xml"⟩ "T1" (by decide) (by decide),
    (generate_unique_targets_and_names "zh" [("k1", "T1"), ("k2", "T2")]
      [("k1", ⟨["res", "values"], "s.xml"⟩),
        ("k2", ⟨["res", "values-fr"], "s.xml"⟩)]).2.2 (by decide)
      "k2" ⟨["res", "values-fr"], "s.xml"⟩ "T2" (by decide) (by decide)⟩

theorem flattenEntry_keys_eq {st : FlattenState}
    (h : st.all_entries.map Prod.fst = st.map_data.map Prod.fst)
    (path : String) (nt : String × String) :
    (flattenEntry path st nt).all_entries.map Prod.fst =
      (flattenEntry path st nt).map_data.map Prod.fst := by
  rw [flattenEntry]
  simp only [dictInsert_keys, h]

theorem flattenFile_keys_eq {st : FlattenState}
    (h : st.all_entries.map Prod.fst = st.map_data.map Prod.fst)
    (f : String × List (String × String)) :
    (flattenFile st f).all_entries.map Prod.fst =
      (flattenFile st f).map_data.map Prod.fst := by
  rw [flattenFile]
  split
  · exact h
  · rename_i hne
    clear hne
    induction f.2 generalizing st with
    | nil => exact h
    | cons nt rest ih =>
      rw [List.foldl_cons]
      exact ih (flattenEntry_keys_eq h f.1 nt)

theorem flattenRun_keys_eq (files : List (String × List (String × String))) :
    (flattenRun files).all_entries.map Prod.fst =
      (flattenRun files).map_data.map Prod.fst := by
  rw [flattenRun]
  have hgen : ∀ (fs : List (String × List (String × String))) (st : FlattenState),
      st.all_entries.map Prod.fst = st.map_data.map Prod.fst →
      (fs.foldl flattenFile st).all_entries.map Prod.fst =
        (fs.foldl flattenFile st).map_data.map Prod.fst := by
    intro fs
    induction fs with
    | nil => intro st h; exact h
    | cons f rest ih =>
      intro st h
      rw [List.foldl_cons]
      exact ih _ (flattenFile_keys_eq h f)
  exact hgen files ⟨[], [], []⟩ rfl

/-- C9: after a flatten pass the ledger and the provenance map have the
same key sequence, so the same key set: a name has a text in the ledger
iff it has an origin path in the provenance map. -/
theorem flatten_ledger_provenance_same_keys
    (files : List (String × List (String × String))) :
    (flattenRun files).all_entries.map Prod.fst =
      (flattenRun files).map_data.map Prod.fst ∧
    ∀ n : String, (dictLookup (flattenRun files).all_entries n).isSome =
      (dictLookup (flattenRun files).map_data n).isSome := by
  have hk := flattenRun_keys_eq files
  refine ⟨hk, fun n => ?_⟩
  cases ha : dictLookup (flattenRun files).all_entries n with
  | none =>
    have h1 : n ∉ (flattenRun files).all_entries.map Prod.fst :=
      (dictLookup_eq_none_iff _ n).mp ha
    have h2 : dictLookup (flattenRun files).map_data n = none :=
      (dictLookup_eq_none_iff _ n).mpr (hk ▸ h1)
    rw [h2]
  | some v =>
    have h1 : n ∈ (flattenRun files).all_entries.map Prod.fst :=
      List.mem_map_of_mem Prod.fst (dictLookup_mem ha)
    cases hb : dictLookup (flattenRun files).map_data n with
    | none =>
      have h2 : n ∉ (flattenRun files).map_data.map Prod.fst :=
        (dictLookup_eq_none_iff _ n).mp hb
      exact absurd (hk ▸ h1) h2
    | some w => rfl

/-- C4: the ledger and provenance files depend only on the key/value
mapping, not on the order entries were collected (any permutation of the
entry list with the same distinct keys gives byte-identical content), and
the emitted name order is sorted; hence flattening the same tree twice
gives byte-identical ledger and provenance files. -/
theorem flatten_output_deterministic (e1 e2 : List (String × String))
    (hperm : e1.Perm e2) (hnd : (e1.map Prod.fst).Nodup) :
    write_entries_content e1 = write_entries_content e2 ∧
    map_file_content e1 = map_file_content e2 ∧
    List.Sorted (fun a b => a ≤ b) (sorted_names e1) := by
  have hkeys : (e1.map Prod.fst).Perm (e2.map Prod.fst) := hperm.map Prod.fst
  haveI h1 : IsTotal String (fun a b => a ≤ b) := ⟨fun a b => le_total a b⟩
  haveI h2 : IsTrans String (fun a b => a ≤ b) := ⟨fun a b c => le_trans⟩
  haveI h3 : IsAntisymm String (fun a b => a ≤ b) := ⟨fun a b => le_antisymm⟩
  have hsorted : pySorted (e1.map Prod.fst) = pySorted (e2.map Prod.fst) := by
    have hp : (pySorted (e1.map Prod.fst)).Perm (pySorted (e2.map Prod.fst)) :=
      (List.perm_insertionSort _ _).trans
        (hkeys.trans (List.perm_insertionSort _ _).symm)
    exact List.eq_of_perm_of_sorted hp (List.sorted_insertionSort _ _)
      (List.sorted_insertionSort _ _)
  have hlook : ∀ n, dictLookup e1 n = dictLookup e2 n := dictLookup_perm hperm hnd
  refine ⟨?_, ?_, ?_⟩
  · rw [write_entries_content, write_entries_content, sorted_names,
      sorted_names, hsorted]
    have hmap : (pySorted (e2.map Prod.fst)).map (fun n =>
        "    <string name=\"" ++ n ++ "\">" ++ dictGetD e1 n "" ++
          "</string>\n") =
      (pySorted (e2.map Prod.fst)).map (fun n =>
        "    <string name=\"" ++ n ++ "\">" ++ dictGetD e2 n "" ++
          "</string>\n") := by
      apply List.map_congr_left
      intro n hn
      rw [dictGetD, dictGetD, hlook n]
    rw [hmap]
  · rw [map_file_content, map_file_content, hsorted]
    have hmap : (pySorted (e2.map Prod.fst)).map (fun n =>
        n ++ ":" ++ dictGetD e1 n "" ++ "\n") =
      (pySorted (e2.map Prod.fst)).map (fun n =>
        n ++ ":" ++ dictGetD e2 n "" ++ "\n") := by
      apply List.map_congr_left
      intro n hn
      rw [dictGetD, dictGetD, hlook n]
    rw [hmap]
  · rw [sorted_names, pySorted]
    exact List.sorted_insertionSort _ _

/-- Witness for C4 at a concrete input. -/
theorem flatten_output_deterministic_w :
    write_entries_content [("b", "2"), ("a", "1")] =
      write_entries_content [("a", "1"), ("b", "2")] :=
  (flatten_output_deterministic [("b", "2"), ("a", "1")] [("a", "1"), ("b", "2")]
    (List.Perm.swap ("a", "1") ("b", "2") []) (by decide)).1

/-- C8 counterexample: a run of translate_xml over ["a" -> "x", "b" -> "y"]
whose stop flag becomes set after the first entry returns False and writes
no target file at all (`none`): no partial ledger keeping the already
translated entry is produced. -/
theorem translate_cancel_writes_nothing :
    translate_xml_run (fun i => decide (1 ≤ i)) (fun s => some "T")
      [("a", "x"), ("b", "y")] = (false, none) := by
  rfl

theorem translateLoop_none (stopSet : Nat → Bool) (tr : String → Option String) :
    ∀ (es : List (String × String)) (i : Nat) (acc : List (String × String)),
      (∃ j, j ≤ es.length ∧ stopSet (i + j) = true) →
      translateLoop stopSet tr i acc es = none := by
  intro es
  induction es with
  | nil =>
    rintro i acc ⟨j, hj, hstop⟩
    have hj0 : j = 0 := Nat.le_zero.mp (by simpa using hj)
    rw [hj0, Nat.add_zero] at hstop
    rw [translateLoop, hstop]
    rfl
  | cons e rest ih =>
    rintro i acc ⟨j, hj, hstop⟩
    obtain ⟨n, t⟩ := e
    rw [translateLoop]
    cases hs : stopSet i with
    | true => rfl
    | false =>
      simp only [Bool.false_eq_true, if_false]
      apply ih
      cases j with
      | zero =>
        rw [Nat.add_zero] at hstop
        exact absurd hstop (by simp [hs])
      | succ j' =>
        have harith : i + (j' + 1) = (i + 1) + j' := by omega
        rw [harith] at hstop
        exact ⟨j', by simpa using hj, hstop⟩

/-- C8 (amended): if the cooperative stop flag is observed set at any of
the checks (before each entry, or at the post-loop check), translate_xml
returns False and writes no ledger file at all; entries translated before
the cancellation are discarded, not saved to a partial ledger. -/
theorem translate_cancel_no_write (stopSet : Nat → Bool)
    (tr : String → Option String) (entries : List (String × String))
    (htrig : ∃ i, i ≤ entries.length ∧ stopSet i = true) :
    translate_xml_run stopSet tr entries = (false, none) := by
  rw [translate_xml_run]
  have h : translateLoop stopSet tr 0 [] entries = none := by
    apply translateLoop_none
    obtain ⟨i, hi, hs⟩ := htrig
    exact ⟨i, hi, by simpa using hs⟩
  rw [h]

/-- Witness for C8's amended theorem at a concrete input. -/
theorem translate_cancel_no_write_w :
    translate_xml_run (fun i => decide (2 ≤ i)) (fun s => some "T")
      [("a", "x"), ("b", "y"), ("c", "z")] = (false, none) :=
  translate_cancel_no_write (fun i => decide (2 ≤ i)) (fun s => some "T")
    [("a", "x"), ("b", "y"), ("c", "z")] ⟨2, by decide, by decide⟩

/-- C10: modify_folder_name of src/fbtranslator.py reads `parts[-2]`
unconditionally, so a provenance path with fewer than two components
raises IndexError (modelled `none`), and Packer.generate on a map
containing such a path returns a failed result through its surrounding
exception handler. -/
theorem fb_short_path_aborts (lang_suffix : String)
    (translated : String → Option String)
    (entries : List (String × List (List String)))
    (key : String) (paths : List (List String)) (parts : List String)
    (hk : (key, paths) ∈ entries) (hp : parts ∈ paths)
    (hlen : parts.length < 2) :
    fb_modify_folder_name lang_suffix parts = none ∧
    fb_generate lang_suffix translated entries = false := by
  have h1 : fb_modify_folder_name lang_suffix parts = none := by
    rw [fb_modify_folder_name, if_neg (by omega)]
  refine ⟨h1, ?_⟩
  cases hres : fb_generate lang_suffix translated entries with
  | false => rfl
  | true =>
    exfalso
    rw [fb_generate, List.all_eq_true] at hres
    have h2 := hres (key, paths) hk
    simp only [List.all_eq_true] at h2
    have h3 := h2 parts hp
    rw [h1] at h3
    simp at h3

/-- Witness for C10 at a concrete input. -/
theorem fb_short_path_aborts_w :
    fb_modify_folder_name "zh" ["s.xml"] = none ∧
    fb_generate "zh" (fun s => some "T") [("k", [["s.xml"]])] = false :=
  fb_short_path_aborts "zh" (fun s => some "T") [("k", [["s.xml"]])]
    "k" [["s.xml"]] ["s.xml"] (by simp) (by simp) (by simp)
